import Mathlib

set_option maxHeartbeats 1000000

namespace CircleBufferSpec

/-- Shallow embedding of the Rust struct CircleBuffer<T>: a fixed capacity,
a growable backing vector, and the cursor cur_start marking the offset of the
oldest retained element once the backing region has filled past capacity. -/
structure CircleBuffer (T : Type) where
  capacity : Nat
  vec : List T
  cur_start : Nat
deriving DecidableEq

/-- Machine word modulus for usize (64-bit target). -/
def USIZE : Nat := 2 ^ 64

/-- Backing-region reserve requested by with_capacity: the Rust expression
capacity * 2 - 1 evaluated in wrapping usize arithmetic (release-mode
semantics; in debug builds the same expression aborts on underflow). -/
def reserve_size (capacity : Nat) : Nat :=
  (capacity * 2 + (USIZE - 1)) % USIZE

/-- CircleBuffer::with_capacity: returns an empty buffer with the given
capacity and cursor 0. The function is total in the source: it has no error
path, it only asks the Vec for a reserve of reserve_size capacity slots. -/
def with_capacity (T : Type) (capacity : Nat) : CircleBuffer T :=
  { capacity := capacity, vec := [], cur_start := 0 }

/-- CircleBuffer::push: three phases keyed on vec.len() against capacity and
capacity * 2 - 1. Filling appends; mirroring appends and duplicates the value
into vec[cur_start], advancing the cursor; steady state overwrites
vec[cur_start + capacity] (when that index is inside the region) and
vec[cur_start], advancing the cursor with wraparound to 0 at capacity.
Clone on the value is identity under value semantics. -/
def CircleBuffer.push {T : Type} (b : CircleBuffer T) (value : T) : CircleBuffer T :=
  if b.vec.length < b.capacity then
    { b with vec := b.vec ++ [value] }
  else if b.vec.length < b.capacity * 2 - 1 then
    { b with vec := (b.vec ++ [value]).set b.cur_start value,
             cur_start := b.cur_start + 1 }
  else
    let idx := b.cur_start + b.capacity
    let v1 := if idx < b.capacity * 2 - 1 then b.vec.set idx value else b.vec
    { b with vec := v1.set b.cur_start value,
             cur_start := if b.cur_start + 1 ≥ b.capacity then 0 else b.cur_start + 1 }

/-- CircleBuffer::len: the occupied length of the backing vector, capped at
the capacity. -/
def CircleBuffer.len {T : Type} (b : CircleBuffer T) : Nat :=
  if b.vec.length > b.capacity then b.capacity else b.vec.length

/-- CircleBuffer::is_empty. -/
def CircleBuffer.is_empty {T : Type} (b : CircleBuffer T) : Bool :=
  b.vec.length == 0

/-- CircleBuffer::as_slice: the whole vector while filling, otherwise the
window vec[cur_start .. cur_start + capacity]. Rust range slicing aborts when
the end exceeds vec.len(), so the embedding returns none in that case. -/
def CircleBuffer.as_slice {T : Type} (b : CircleBuffer T) : Option (List T) :=
  if b.vec.length < b.capacity then
    some b.vec
  else if b.cur_start + b.capacity ≤ b.vec.length then
    some ((b.vec.drop b.cur_start).take b.capacity)
  else
    none

/-- CircleBuffer::as_mut_slice, modelled as the physical range (start, length)
of the window it hands out: writes through the returned slice land at backing
offset start + i. The range mirrors as_slice; none models the slicing abort. -/
def CircleBuffer.as_mut_slice {T : Type} (b : CircleBuffer T) : Option (Nat × Nat) :=
  if b.vec.length < b.capacity then
    some (0, b.vec.length)
  else if b.cur_start + b.capacity ≤ b.vec.length then
    some (b.cur_start, b.capacity)
  else
    none

/-- CircleBuffer::iter: the element sequence of the slice
vec[cur_start .. cur_start + len()]; none models the slicing abort. -/
def CircleBuffer.iter {T : Type} (b : CircleBuffer T) : Option (List T) :=
  if b.cur_start + b.len ≤ b.vec.length then
    some ((b.vec.drop b.cur_start).take b.len)
  else
    none

/-- CircleBuffer::iter_mut: the element sequence visited by the mutable
iterator over vec[cur_start .. cur_start + len()] (end_index in the source). -/
def CircleBuffer.iter_mut {T : Type} (b : CircleBuffer T) : Option (List T) :=
  let end_index := b.cur_start + b.len
  if end_index ≤ b.vec.length then
    some ((b.vec.drop b.cur_start).take (end_index - b.cur_start))
  else
    none

/-- Index::index for CircleBuffer: assert index < vec.len(), then read
as_slice()[index]. Both the failed assert and an out-of-range read of the
returned slice abort, modelled as none. -/
def CircleBuffer.index {T : Type} (b : CircleBuffer T) (i : Nat) : Option T :=
  if i < b.vec.length then
    match b.as_slice with
    | some s => s[i]?
    | none => none
  else
    none

/-- IndexMut::index_mut for CircleBuffer followed by a store of x: assert
index < vec.len(), then write through as_mut_slice()[index]. The write lands
at the backing slot start + i of the mutable window. -/
def CircleBuffer.index_set {T : Type} (b : CircleBuffer T) (i : Nat) (x : T) :
    Option (CircleBuffer T) :=
  if i < b.vec.length then
    match b.as_mut_slice with
    | some r => if i < r.2 then some { b with vec := b.vec.set (r.1 + i) x } else none
    | none => none
  else
    none

/-- Pushing a whole sequence of values, in order. -/
def CircleBuffer.pushAll {T : Type} (b : CircleBuffer T) (vs : List T) : CircleBuffer T :=
  vs.foldl CircleBuffer.push b

/-- Reading through drop shifts the index. -/
theorem getElem?_drop_add {T : Type} (l : List T) (i j : Nat) :
    (l.drop i)[j]? = l[i + j]? := by
  induction i generalizing l with
  | zero => simp
  | succ n ih =>
    cases l with
    | nil => simp
    | cons a t => simp [Nat.succ_add, ih]

/-- Push in the filling phase appends. -/
theorem push_fill {T : Type} {b : CircleBuffer T} {v : T}
    (h : b.vec.length < b.capacity) :
    b.push v = { b with vec := b.vec ++ [v] } := by
  simp [CircleBuffer.push, h]

/-- Push in the mirroring phase appends, duplicates into vec[cur_start] and
advances the cursor. -/
theorem push_mirror {T : Type} {b : CircleBuffer T} {v : T}
    (h1 : ¬ b.vec.length < b.capacity) (h2 : b.vec.length < b.capacity * 2 - 1) :
    b.push v = { b with vec := (b.vec ++ [v]).set b.cur_start v,
                        cur_start := b.cur_start + 1 } := by
  simp [CircleBuffer.push, h1, h2]

/-- Push in the steady-state phase overwrites up to two slots and advances the
cursor with wraparound. -/
theorem push_steady {T : Type} {b : CircleBuffer T} {v : T}
    (h1 : ¬ b.vec.length < b.capacity) (h2 : ¬ b.vec.length < b.capacity * 2 - 1) :
    b.push v =
      { b with
        vec := (if b.cur_start + b.capacity < b.capacity * 2 - 1 then
            b.vec.set (b.cur_start + b.capacity) v else b.vec).set b.cur_start v,
        cur_start := if b.cur_start + 1 ≥ b.capacity then 0 else b.cur_start + 1 } := by
  simp [CircleBuffer.push, h1, h2]

/-- Push never changes the capacity. -/
theorem push_capacity {T : Type} (b : CircleBuffer T) (v : T) :
    (b.push v).capacity = b.capacity := by
  unfold CircleBuffer.push
  split
  · rfl
  split
  · rfl
  · rfl

/-- Folding push over an appended singleton. -/
theorem pushAll_append_singleton {T : Type} (b : CircleBuffer T) (vs : List T) (v : T) :
    b.pushAll (vs ++ [v]) = (b.pushAll vs).push v := by
  simp [CircleBuffer.pushAll]

/-- pushAll never changes the capacity. -/
theorem pushAll_capacity {T : Type} (b : CircleBuffer T) (vs : List T) :
    (b.pushAll vs).capacity = b.capacity := by
  induction vs generalizing b with
  | nil => rfl
  | cons a t ih =>
    show ((b.push a).pushAll t).capacity = b.capacity
    rw [ih, push_capacity]

/-- State invariant of the buffer after the history vs has been pushed.
While filling, the backing vector is the history itself and the cursor is
still 0. Once capacity many values are in, the backing vector's length is the
history's length capped at capacity * 2 - 1, the logical window
vec[cur_start .. cur_start + capacity] lies inside the vector (with its right
edge exactly at the vector's end before the region is full), the window holds
the last capacity values of the history, and every slot left of the cursor
mirrors the slot capacity places to its right. -/
def Inv {T : Type} (b : CircleBuffer T) (vs : List T) : Prop :=
  (vs.length < b.capacity → b.vec = vs ∧ b.cur_start = 0) ∧
  (b.capacity ≤ vs.length →
    b.vec.length = min vs.length (b.capacity * 2 - 1) ∧
    b.cur_start + b.capacity ≤ b.vec.length ∧
    (b.vec.length < b.capacity * 2 - 1 → b.cur_start + b.capacity = b.vec.length) ∧
    (∀ j, j < b.capacity →
      b.vec[b.cur_start + j]? = vs[vs.length - b.capacity + j]?) ∧
    (∀ i, i < b.cur_start → b.vec[i]? = b.vec[i + b.capacity]?))

/-- The invariant is preserved by push. -/
theorem inv_push {T : Type} {b : CircleBuffer T} {vs : List T} (v : T)
    (hC : 1 ≤ b.capacity) (h : Inv b vs) : Inv (b.push v) (vs ++ [v]) := by
  obtain ⟨hfill, hfull⟩ := h
  by_cases hN : vs.length < b.capacity
  case pos =>
    obtain ⟨hv, hc⟩ := hfill hN
    have hlen : b.vec.length < b.capacity := by rw [hv]; exact hN
    rw [push_fill hlen]
    refine ⟨?_, ?_⟩
    · intro _
      exact ⟨by rw [hv], hc⟩
    · intro h1
      dsimp only at h1 ⊢
      have hNC : vs.length + 1 = b.capacity := by
        simp only [List.length_append, List.length_cons, List.length_nil] at h1
        omega
      refine ⟨?_, ?_, ?_, ?_, ?_⟩
      · rw [hv]
        simp only [List.length_append, List.length_cons, List.length_nil]
        omega
      · rw [hc, hv]
        simp only [List.length_append, List.length_cons, List.length_nil]
        omega
      · intro _
        rw [hc, hv]
        simp only [List.length_append, List.length_cons, List.length_nil]
        omega
      · intro j hj
        rw [hc]
        have e1 : (vs ++ [v]).length - b.capacity + j = 0 + j := by
          simp only [List.length_append, List.length_cons, List.length_nil]
          omega
        rw [e1, hv]
      · intro i hi
        rw [hc] at hi
        omega
  case neg =>
    obtain ⟨hlen, haddr, hmir, hwin, hdup⟩ := hfull (Nat.le_of_not_lt hN)
    have hNge : b.capacity ≤ vs.length := Nat.le_of_not_lt hN
    have hlt : ¬ b.vec.length < b.capacity := by omega
    by_cases hN2 : b.vec.length < b.capacity * 2 - 1
    case pos =>
      -- mirroring phase
      have hlenN : b.vec.length = vs.length := by omega
      have hcs : b.cur_start + b.capacity = b.vec.length := hmir hN2
      rw [push_mirror hlt hN2]
      refine ⟨?_, ?_⟩
      · intro h1
        exfalso
        dsimp only at h1
        simp only [List.length_append, List.length_cons, List.length_nil] at h1
        omega
      · intro _
        dsimp only
        refine ⟨?_, ?_, ?_, ?_, ?_⟩
        · simp only [List.length_set, List.length_append, List.length_cons,
            List.length_nil]
          omega
        · simp only [List.length_set, List.length_append, List.length_cons,
            List.length_nil]
          omega
        · intro _
          simp only [List.length_set, List.length_append, List.length_cons,
            List.length_nil]
          omega
        · intro j hj
          rw [List.getElem?_set_ne (show b.cur_start ≠ b.cur_start + 1 + j by omega)]
          by_cases hjC : j + 1 < b.capacity
          · rw [List.getElem?_append_left
              (show b.cur_start + 1 + j < b.vec.length by omega)]
            rw [List.getElem?_append_left
              (show (vs ++ [v]).length - b.capacity + j < vs.length by
                simp only [List.length_append, List.length_cons, List.length_nil]
                omega)]
            have e1 : b.cur_start + 1 + j = b.cur_start + (j + 1) := by omega
            have e2 : (vs ++ [v]).length - b.capacity + j
                = vs.length - b.capacity + (j + 1) := by
              simp only [List.length_append, List.length_cons, List.length_nil]
              omega
            rw [e1, e2]
            exact hwin (j + 1) (by omega)
          · have e1 : b.cur_start + 1 + j = b.vec.length := by omega
            rw [e1, List.getElem?_concat_length]
            have e2 : (vs ++ [v]).length - b.capacity + j = vs.length := by
              simp only [List.length_append, List.length_cons, List.length_nil]
              omega
            rw [e2, List.getElem?_concat_length]
        · intro i hi
          by_cases hics : i = b.cur_start
          · rw [hics]
            rw [List.getElem?_set_self
              (show b.cur_start < (b.vec ++ [v]).length by
                simp only [List.length_append, List.length_cons, List.length_nil]
                omega)]
            rw [List.getElem?_set_ne
              (show b.cur_start ≠ b.cur_start + b.capacity by omega)]
            rw [hcs, List.getElem?_concat_length]
          · have hilt : i < b.cur_start := by omega
            rw [List.getElem?_set_ne (show b.cur_start ≠ i from fun e => hics e.symm)]
            rw [List.getElem?_set_ne (show b.cur_start ≠ i + b.capacity by omega)]
            rw [List.getElem?_append_left (show i < b.vec.length by omega)]
            rw [List.getElem?_append_left (show i + b.capacity < b.vec.length by omega)]
            exact hdup i hilt
    case neg =>
      -- steady-state phase
      have hlen2 : b.vec.length = b.capacity * 2 - 1 := by omega
      have hNbig : b.capacity * 2 - 1 ≤ vs.length := by omega
      have hcsC : b.cur_start < b.capacity := by omega
      rw [push_steady hlt hN2]
      by_cases hwrap : b.cur_start + 1 ≥ b.capacity
      case pos =>
        have hnoin : ¬ b.cur_start + b.capacity < b.capacity * 2 - 1 := by omega
        rw [if_neg hnoin, if_pos hwrap]
        refine ⟨?_, ?_⟩
        · intro h1
          exfalso
          dsimp only at h1
          simp only [List.length_append, List.length_cons, List.length_nil] at h1
          omega
        · intro _
          dsimp only
          refine ⟨?_, ?_, ?_, ?_, ?_⟩
          · simp only [List.length_set, List.length_append, List.length_cons,
              List.length_nil]
            omega
          · simp only [List.length_set]
            omega
          · intro hx
            simp only [List.length_set] at hx
            omega
          · intro j hj
            rw [Nat.zero_add]
            by_cases hjC : j + 1 < b.capacity
            · rw [List.getElem?_set_ne (show b.cur_start ≠ j by omega)]
              rw [hdup j (by omega)]
              have e1 : j + b.capacity = b.cur_start + (j + 1) := by omega
              rw [e1, hwin (j + 1) (by omega)]
              rw [List.getElem?_append_left
                (show (vs ++ [v]).length - b.capacity + j < vs.length by
                  simp only [List.length_append, List.length_cons, List.length_nil]
                  omega)]
              have e2 : (vs ++ [v]).length - b.capacity + j
                  = vs.length - b.capacity + (j + 1) := by
                simp only [List.length_append, List.length_cons, List.length_nil]
                omega
              rw [e2]
            · have e2 : (vs ++ [v]).length - b.capacity + j = vs.length := by
                simp only [List.length_append, List.length_cons, List.length_nil]
                omega
              rw [e2, List.getElem?_concat_length]
              have e1 : j = b.cur_start := by omega
              rw [e1, List.getElem?_set_self
                (show b.cur_start < b.vec.length by omega)]
          · intro i hi
            exact absurd hi (Nat.not_lt_zero i)
      case neg =>
        have hin : b.cur_start + b.capacity < b.capacity * 2 - 1 := by omega
        rw [if_pos hin, if_neg hwrap]
        refine ⟨?_, ?_⟩
        · intro h1
          exfalso
          dsimp only at h1
          simp only [List.length_append, List.length_cons, List.length_nil] at h1
          omega
        · intro _
          dsimp only
          refine ⟨?_, ?_, ?_, ?_, ?_⟩
          · simp only [List.length_set, List.length_append, List.length_cons,
              List.length_nil]
            omega
          · simp only [List.length_set]
            omega
          · intro hx
            simp only [List.length_set] at hx
            omega
          · intro j hj
            rw [List.getElem?_set_ne (show b.cur_start ≠ b.cur_start + 1 + j by omega)]
            by_cases hjC : j + 1 < b.capacity
            · rw [List.getElem?_set_ne
                (show b.cur_start + b.capacity ≠ b.cur_start + 1 + j by omega)]
              have e1 : b.cur_start + 1 + j = b.cur_start + (j + 1) := by omega
              rw [e1, hwin (j + 1) (by omega)]
              rw [List.getElem?_append_left
                (show (vs ++ [v]).length - b.capacity + j < vs.length by
                  simp only [List.length_append, List.length_cons, List.length_nil]
                  omega)]
              have e2 : (vs ++ [v]).length - b.capacity + j
                  = vs.length - b.capacity + (j + 1) := by
                simp only [List.length_append, List.length_cons, List.length_nil]
                omega
              rw [e2]
            · have e1 : b.cur_start + 1 + j = b.cur_start + b.capacity := by omega
              rw [e1, List.getElem?_set_self
                (show b.cur_start + b.capacity < b.vec.length by omega)]
              have e2 : (vs ++ [v]).length - b.capacity + j = vs.length := by
                simp only [List.length_append, List.length_cons, List.length_nil]
                omega
              rw [e2, List.getElem?_concat_length]
          · intro i hi
            by_cases hics : i = b.cur_start
            · rw [hics]
              rw [List.getElem?_set_self
                (show b.cur_start < (b.vec.set (b.cur_start + b.capacity) v).length by
                  simp only [List.length_set]
                  omega)]
              rw [List.getElem?_set_ne
                (show b.cur_start ≠ b.cur_start + b.capacity by omega)]
              rw [List.getElem?_set_self
                (show b.cur_start + b.capacity < b.vec.length by omega)]
            · have hilt : i < b.cur_start := by omega
              rw [List.getElem?_set_ne (show b.cur_start ≠ i from fun e => hics e.symm)]
              rw [List.getElem?_set_ne
                (show b.cur_start + b.capacity ≠ i by omega)]
              rw [List.getElem?_set_ne
                (show b.cur_start ≠ i + b.capacity by omega)]
              rw [List.getElem?_set_ne
                (show b.cur_start + b.capacity ≠ i + b.capacity by omega)]
              exact hdup i hilt

/-- The invariant holds for every buffer built by construction followed by any
sequence of pushes. -/
theorem inv_pushAll {T : Type} (C : Nat) (hC : 1 ≤ C) (vs : List T) :
    Inv ((with_capacity T C).pushAll vs) vs := by
  induction vs using List.reverseRecOn with
  | nil =>
    refine ⟨fun _ => ⟨rfl, rfl⟩, fun h1 => ?_⟩
    exfalso
    rw [pushAll_capacity] at h1
    simp only [with_capacity, List.length_nil] at h1
    omega
  | append_singleton vs v ih =>
    rw [pushAll_append_singleton]
    exact inv_push v (by rw [pushAll_capacity]; exact hC) ih

/-- Structural well-formedness: positive capacity, cursor still 0 while the
backing vector is shorter than the capacity, and the window
vec[cur_start .. cur_start + capacity] addressable once it is not. Every state
reachable by construction, pushes and indexed writes satisfies it. -/
def WF {T : Type} (b : CircleBuffer T) : Prop :=
  1 ≤ b.capacity ∧
  (b.vec.length < b.capacity → b.cur_start = 0) ∧
  (b.capacity ≤ b.vec.length → b.cur_start + b.capacity ≤ b.vec.length)

instance wfDecidable {T : Type} (b : CircleBuffer T) : Decidable (WF b) := by
  unfold WF
  exact inferInstance

/-- The reachability invariant implies structural well-formedness. -/
theorem wf_of_inv {T : Type} {b : CircleBuffer T} {vs : List T}
    (hC : 1 ≤ b.capacity) (h : Inv b vs) : WF b := by
  obtain ⟨hfill, hfull⟩ := h
  refine ⟨hC, ?_, ?_⟩
  · intro hlt
    by_cases hN : vs.length < b.capacity
    · exact (hfill hN).2
    · obtain ⟨hlen, -, -, -, -⟩ := hfull (Nat.le_of_not_lt hN)
      omega
  · intro hge
    by_cases hN : vs.length < b.capacity
    · obtain ⟨hv, -⟩ := hfill hN
      rw [hv] at hge
      omega
    · exact (hfull (Nat.le_of_not_lt hN)).2.1

/-- Every buffer built by construction and pushes is well-formed. -/
theorem wf_pushAll {T : Type} (C : Nat) (hC : 1 ≤ C) (vs : List T) :
    WF ((with_capacity T C).pushAll vs) :=
  wf_of_inv (by rw [pushAll_capacity]; exact hC) (inv_pushAll C hC vs)

/-- Under well-formedness both phases of as_slice and as_mut_slice agree with
the uniform window vec[cur_start .. cur_start + len]. -/
theorem wf_facts {T : Type} {b : CircleBuffer T} (hb : WF b) :
    b.len ≤ b.capacity ∧ b.len ≤ b.vec.length ∧
    b.cur_start + b.len ≤ b.vec.length ∧
    b.as_slice = some ((b.vec.drop b.cur_start).take b.len) ∧
    b.as_mut_slice = some (b.cur_start, b.len) ∧
    ((b.vec.drop b.cur_start).take b.len).length = b.len := by
  obtain ⟨hC, h0, haddr⟩ := hb
  by_cases hfill : b.vec.length < b.capacity
  · have hc0 := h0 hfill
    have hlen : b.len = b.vec.length := by
      unfold CircleBuffer.len
      rw [if_neg (by omega)]
    refine ⟨by omega, by omega, by omega, ?_, ?_, ?_⟩
    · unfold CircleBuffer.as_slice
      rw [if_pos hfill, hc0, hlen]
      simp
    · unfold CircleBuffer.as_mut_slice
      rw [if_pos hfill, hc0, hlen]
    · rw [hc0, hlen]
      simp
  · have hge : b.capacity ≤ b.vec.length := Nat.le_of_not_lt hfill
    have ha := haddr hge
    have hlen : b.len = b.capacity := by
      unfold CircleBuffer.len
      split
      · rfl
      · omega
    refine ⟨by omega, by omega, by omega, ?_, ?_, ?_⟩
    · unfold CircleBuffer.as_slice
      rw [if_neg hfill, if_pos ha, hlen]
    · unfold CircleBuffer.as_mut_slice
      rw [if_neg hfill, if_pos ha, hlen]
    · rw [hlen]
      simp only [List.length_take, List.length_drop]
      omega

/-- The mutable iterator visits exactly the slice the immutable one does. -/
theorem iter_mut_eq_iter {T : Type} (b : CircleBuffer T) : b.iter_mut = b.iter := by
  simp only [CircleBuffer.iter_mut, CircleBuffer.iter, Nat.add_sub_cancel_left]

/-- Under well-formedness iteration yields exactly the contiguous view. -/
theorem iter_of_wf {T : Type} {b : CircleBuffer T} (hb : WF b) :
    b.iter = b.as_slice := by
  obtain ⟨-, -, h2, h4, -, -⟩ := wf_facts hb
  unfold CircleBuffer.iter
  rw [if_pos h2, h4]

/-- Under well-formedness an in-range indexed read is the backing slot at
cur_start + i, and it succeeds. -/
theorem index_of_wf {T : Type} {b : CircleBuffer T} (hb : WF b) (i : Nat)
    (hi : i < b.len) :
    b.index i = b.vec[b.cur_start + i]? ∧ ∃ x, b.vec[b.cur_start + i]? = some x := by
  obtain ⟨h1, h2, h3, h4, -, -⟩ := wf_facts hb
  constructor
  · unfold CircleBuffer.index
    rw [if_pos (show i < b.vec.length by omega), h4]
    show ((b.vec.drop b.cur_start).take b.len)[i]? = b.vec[b.cur_start + i]?
    rw [List.getElem?_take_of_lt hi, getElem?_drop_add]
  · exact ⟨_, List.getElem?_eq_getElem (by omega)⟩

/-- Under well-formedness an out-of-range indexed read faults. -/
theorem index_none_of_wf {T : Type} {b : CircleBuffer T} (hb : WF b) (i : Nat)
    (hi : b.len ≤ i) : b.index i = none := by
  obtain ⟨h1, h2, h3, h4, -, h6⟩ := wf_facts hb
  unfold CircleBuffer.index
  by_cases hv : i < b.vec.length
  · rw [if_pos hv, h4]
    show ((b.vec.drop b.cur_start).take b.len)[i]? = none
    exact List.getElem?_eq_none (by rw [h6]; exact hi)
  · rw [if_neg hv]

/-- Under well-formedness an in-range indexed write lands at backing slot
cur_start + i. -/
theorem index_set_of_wf {T : Type} {b : CircleBuffer T} (hb : WF b) (i : Nat) (x : T)
    (hi : i < b.len) :
    b.index_set i x = some { b with vec := b.vec.set (b.cur_start + i) x } := by
  obtain ⟨h1, h2, h3, -, h5, -⟩ := wf_facts hb
  simp only [CircleBuffer.index_set, h5]
  rw [if_pos (show i < b.vec.length by omega), if_pos hi]

/-- Under well-formedness an out-of-range indexed write faults. -/
theorem index_set_none_of_wf {T : Type} {b : CircleBuffer T} (hb : WF b) (i : Nat)
    (x : T) (hi : b.len ≤ i) : b.index_set i x = none := by
  obtain ⟨h1, h2, h3, -, h5, -⟩ := wf_facts hb
  simp only [CircleBuffer.index_set, h5]
  by_cases hv : i < b.vec.length
  · rw [if_pos hv, if_neg (by omega)]
  · rw [if_neg hv]

/-- Under the reachability invariant the contiguous view is exactly the last
capacity values of the push history (all of it while filling). -/
theorem as_slice_eq_of_inv {T : Type} {b : CircleBuffer T} {vs : List T}
    (hC : 1 ≤ b.capacity) (h : Inv b vs) :
    b.as_slice = some (vs.drop (vs.length - b.capacity)) := by
  obtain ⟨hfill, hfull⟩ := h
  by_cases hN : vs.length < b.capacity
  · obtain ⟨hv, hc⟩ := hfill hN
    have hd : vs.length - b.capacity = 0 := by omega
    unfold CircleBuffer.as_slice
    rw [if_pos (by rw [hv]; exact hN), hd, List.drop_zero, hv]
  · obtain ⟨hlen, haddr, hmir, hwin, hdup⟩ := hfull (Nat.le_of_not_lt hN)
    have hNge : b.capacity ≤ vs.length := Nat.le_of_not_lt hN
    have hlt : ¬ b.vec.length < b.capacity := by omega
    unfold CircleBuffer.as_slice
    rw [if_neg hlt, if_pos haddr]
    congr 1
    apply List.ext_getElem?
    intro n
    by_cases hn : n < b.capacity
    · rw [List.getElem?_take_of_lt hn, getElem?_drop_add, getElem?_drop_add]
      exact hwin n hn
    · rw [List.getElem?_eq_none
        (show ((b.vec.drop b.cur_start).take b.capacity).length ≤ n by
          simp only [List.length_take, List.length_drop]
          omega)]
      rw [List.getElem?_eq_none
        (show (vs.drop (vs.length - b.capacity)).length ≤ n by
          simp only [List.length_drop]
          omega)]

/-- C1: for every capacity C at least 1 and every sequence of N values pushed
into a buffer created with capacity C, as_slice succeeds and equals the whole
push history when N is at most C, and exactly the last C pushed values,
oldest-to-newest, when N exceeds C. -/
theorem c1_as_slice_is_last_capacity_values (T : Type) (C : Nat) (hC : 1 ≤ C)
    (vs : List T) :
    ((with_capacity T C).pushAll vs).as_slice =
      some (if vs.length ≤ C then vs else vs.drop (vs.length - C)) := by
  have hcap : ((with_capacity T C).pushAll vs).capacity = C := pushAll_capacity _ _
  have h := as_slice_eq_of_inv (b := (with_capacity T C).pushAll vs)
    (by rw [hcap]; exact hC) (inv_pushAll C hC vs)
  rw [hcap] at h
  rw [h]
  by_cases hle : vs.length ≤ C
  · rw [if_pos hle, show vs.length - C = 0 by omega, List.drop_zero]
  · rw [if_neg hle]

/-- C1 witness: capacity 3, pushes 1..5, view is the last three values. -/
theorem c1_witness :
    ((with_capacity Nat 3).pushAll [1, 2, 3, 4, 5]).as_slice = some [3, 4, 5] := by
  rw [c1_as_slice_is_last_capacity_values Nat 3 (by omega) [1, 2, 3, 4, 5]]
  decide

/-- C2: after any N pushes into a buffer of capacity C at least 1, len is
min N C, which is also the backing vector's occupied length capped at the
capacity. -/
theorem c2_len_is_min (T : Type) (C : Nat) (hC : 1 ≤ C) (vs : List T) :
    ((with_capacity T C).pushAll vs).len = min vs.length C ∧
    ((with_capacity T C).pushAll vs).len =
      min ((with_capacity T C).pushAll vs).vec.length C := by
  obtain ⟨hfill, hfull⟩ := inv_pushAll C hC vs
  have hcap : ((with_capacity T C).pushAll vs).capacity = C := pushAll_capacity _ _
  rw [hcap] at hfill hfull
  by_cases hN : vs.length < C
  · obtain ⟨hv, -⟩ := hfill hN
    constructor
    · simp only [CircleBuffer.len, hcap, hv]
      split
      · omega
      · omega
    · simp only [CircleBuffer.len, hcap, hv]
      split
      · omega
      · omega
  · obtain ⟨hlen, -, -, -, -⟩ := hfull (Nat.le_of_not_lt hN)
    constructor
    · simp only [CircleBuffer.len, hcap, hlen]
      split
      · omega
      · omega
    · simp only [CircleBuffer.len, hcap, hlen]
      split
      · omega
      · omega

/-- C2 witness: capacity 3, five pushes, len is 3. -/
theorem c2_witness :
    ((with_capacity Nat 3).pushAll [1, 2, 3, 4, 5]).len = min 5 3 := by
  have h := (c2_len_is_min Nat 3 (by omega) [1, 2, 3, 4, 5]).1
  rw [h]
  decide

/-- C3: for every well-formed buffer state (which covers every state reachable
by construction, pushes and indexed writes) and every index i below len,
indexed read returns exactly the i-th element of the contiguous view. -/
theorem c3_index_agrees_with_as_slice (T : Type) (b : CircleBuffer T) (hb : WF b)
    (i : Nat) (hi : i < b.len) :
    ∃ view x, b.as_slice = some view ∧ view[i]? = some x ∧ b.index i = some x := by
  obtain ⟨h1, h2, h3, h4, h5, h6⟩ := wf_facts hb
  obtain ⟨he, x, hx⟩ := index_of_wf hb i hi
  refine ⟨_, x, h4, ?_, by rw [he, hx]⟩
  rw [List.getElem?_take_of_lt hi, getElem?_drop_add]
  exact hx

/-- C3 witness: the buffer reached by pushing 1,2,3,4 at capacity 3. -/
theorem c3_witness :
    ∃ view x,
      (CircleBuffer.mk 3 [4, 2, 3, 4] 1 : CircleBuffer Nat).as_slice = some view ∧
      view[1]? = some x ∧
      (CircleBuffer.mk 3 [4, 2, 3, 4] 1 : CircleBuffer Nat).index 1 = some x :=
  c3_index_agrees_with_as_slice Nat (CircleBuffer.mk 3 [4, 2, 3, 4] 1)
    (by decide) 1 (by decide)

/-- C4: the claim asks for an InvalidCapacity construction error at capacity 0,
but the code has no error path: with_capacity is total, and the backing
reserve expression capacity * 2 - 1 underflows in usize arithmetic at
capacity 0 (wrapping to USIZE - 1 in release builds; the same expression is an
abort in debug builds), while for every ordinary positive capacity it is the
intended 2 * capacity - 1. -/
theorem c4_capacity_zero_underflows_without_error :
    reserve_size 0 = USIZE - 1 ∧
    (∀ c : Nat, 1 ≤ c → c < 2 ^ 63 → reserve_size c = c * 2 - 1) ∧
    with_capacity Nat 0 = { capacity := 0, vec := [], cur_start := 0 } := by
  refine ⟨by decide, ?_, rfl⟩
  intro c h1 h2
  have e64 : USIZE = 18446744073709551616 := by norm_num [USIZE]
  have e63 : (2 : Nat) ^ 63 = 9223372036854775808 := by norm_num
  rw [e63] at h2
  unfold reserve_size
  rw [e64]
  omega

/-- C4 witness: at capacity 3 the reserve is the intended 5 slots. -/
theorem c4_witness : reserve_size 3 = 3 * 2 - 1 :=
  (c4_capacity_zero_underflows_without_error).2.1 3 (by omega) (by norm_num)

/-- C5 counterexample: after pushing 1,2,3,4 at capacity 3 the backing vector
holds 4 elements, so the claim says index 3 must not fault; but both the read
and the write at index 3 fault (the assert passes, the slice access aborts). -/
theorem c5_counterexample :
    3 < ((with_capacity Nat 3).pushAll [1, 2, 3, 4]).vec.length ∧
    ((with_capacity Nat 3).pushAll [1, 2, 3, 4]).index 3 = none ∧
    ((with_capacity Nat 3).pushAll [1, 2, 3, 4]).index_set 3 0 = none := by
  decide

/-- C5 amended: indexed read and write fault exactly when i is at least len()
(the capped logical length). The explicit assertion does check the raw
occupied count, but the subsequent slice access additionally faults for
indices in [len(), occupied_length). -/
theorem c5_fault_iff_ge_len (T : Type) (b : CircleBuffer T) (hb : WF b)
    (i : Nat) (x : T) :
    (b.index i = none ↔ b.len ≤ i) ∧ (b.index_set i x = none ↔ b.len ≤ i) := by
  constructor
  · constructor
    · intro hn
      by_contra hlt
      obtain ⟨he, y, hy⟩ := index_of_wf hb i (by omega)
      rw [he, hy] at hn
      exact Option.noConfusion hn
    · exact index_none_of_wf hb i
  · constructor
    · intro hn
      by_contra hlt
      rw [index_set_of_wf hb i x (by omega)] at hn
      exact Option.noConfusion hn
    · exact index_set_none_of_wf hb i x

/-- C5 witness for the amended statement. -/
theorem c5_witness :
    ((CircleBuffer.mk 3 [4, 2, 3, 4] 1 : CircleBuffer Nat).index 3 = none ↔
      (CircleBuffer.mk 3 [4, 2, 3, 4] 1 : CircleBuffer Nat).len ≤ 3) ∧
    ((CircleBuffer.mk 3 [4, 2, 3, 4] 1 : CircleBuffer Nat).index_set 3 0 = none ↔
      (CircleBuffer.mk 3 [4, 2, 3, 4] 1 : CircleBuffer Nat).len ≤ 3) :=
  c5_fault_iff_ge_len Nat (CircleBuffer.mk 3 [4, 2, 3, 4] 1) (by decide) 3 0

/-- C6: for every well-formed buffer state, iter and iter_mut yield exactly
len elements, in the same left-to-right order as indexed access 0..len and as
the contiguous view. -/
theorem c6_iteration_matches_indexed_order (T : Type) (b : CircleBuffer T)
    (hb : WF b) :
    ∃ l, b.iter = some l ∧ b.iter_mut = some l ∧ b.as_slice = some l ∧
      l.length = b.len ∧ ∀ i, i < b.len → b.index i = l[i]? := by
  obtain ⟨h1, h2, h3, h4, h5, h6⟩ := wf_facts hb
  refine ⟨_, ?_, ?_, h4, h6, ?_⟩
  · rw [iter_of_wf hb, h4]
  · rw [iter_mut_eq_iter, iter_of_wf hb, h4]
  · intro i hi
    obtain ⟨he, -⟩ := index_of_wf hb i hi
    rw [he, List.getElem?_take_of_lt hi, getElem?_drop_add]

/-- C6 witness. -/
theorem c6_witness :
    ∃ l, (CircleBuffer.mk 3 [4, 2, 3, 4] 1 : CircleBuffer Nat).iter = some l ∧
      (CircleBuffer.mk 3 [4, 2, 3, 4] 1 : CircleBuffer Nat).iter_mut = some l ∧
      (CircleBuffer.mk 3 [4, 2, 3, 4] 1 : CircleBuffer Nat).as_slice = some l ∧
      l.length = (CircleBuffer.mk 3 [4, 2, 3, 4] 1 : CircleBuffer Nat).len ∧
      ∀ i, i < (CircleBuffer.mk 3 [4, 2, 3, 4] 1 : CircleBuffer Nat).len →
        (CircleBuffer.mk 3 [4, 2, 3, 4] 1 : CircleBuffer Nat).index i = l[i]? :=
  c6_iteration_matches_indexed_order Nat (CircleBuffer.mk 3 [4, 2, 3, 4] 1)
    (by decide)

/-- C7: on every well-formed buffer state, writing x at in-range index i and
then reading index i returns x, and every other in-range index j reads the
same value as before the write. -/
theorem c7_set_then_get_roundtrip (T : Type) (b : CircleBuffer T) (hb : WF b)
    (i j : Nat) (x : T) (hi : i < b.len) (hj : j < b.len) (hne : j ≠ i) :
    ∃ b2, b.index_set i x = some b2 ∧ b2.index i = some x ∧
      b2.index j = b.index j := by
  obtain ⟨h1, h2, h3, h4, h5, h6⟩ := wf_facts hb
  have hset := index_set_of_wf hb i x hi
  have hb2 : WF { b with vec := b.vec.set (b.cur_start + i) x } := by
    obtain ⟨hC, h0, ha⟩ := hb
    refine ⟨hC, ?_, ?_⟩
    · simp only [List.length_set]
      exact h0
    · simp only [List.length_set]
      exact ha
  have hlen2 : ({ b with vec := b.vec.set (b.cur_start + i) x } :
      CircleBuffer T).len = b.len := by
    simp only [CircleBuffer.len, List.length_set]
  refine ⟨_, hset, ?_, ?_⟩
  · obtain ⟨he, -⟩ := index_of_wf hb2 i (by rw [hlen2]; exact hi)
    rw [he]
    show (b.vec.set (b.cur_start + i) x)[b.cur_start + i]? = some x
    exact List.getElem?_set_self (by omega)
  · obtain ⟨he2, -⟩ := index_of_wf hb2 j (by rw [hlen2]; exact hj)
    obtain ⟨he1, -⟩ := index_of_wf hb j hj
    rw [he2, he1]
    show (b.vec.set (b.cur_start + i) x)[b.cur_start + j]? = b.vec[b.cur_start + j]?
    exact List.getElem?_set_ne (by omega)

/-- C7 witness: write 9 at index 0 of the buffer reached by pushing 1,2,3,4
at capacity 3, then read indices 0 and 2. -/
theorem c7_witness :
    ∃ b2, (CircleBuffer.mk 3 [4, 2, 3, 4] 1 : CircleBuffer Nat).index_set 0 9 =
        some b2 ∧
      b2.index 0 = some 9 ∧
      b2.index 2 = (CircleBuffer.mk 3 [4, 2, 3, 4] 1 : CircleBuffer Nat).index 2 :=
  c7_set_then_get_roundtrip Nat (CircleBuffer.mk 3 [4, 2, 3, 4] 1) (by decide)
    0 2 9 (by decide) (by decide) (by decide)

/-- C8: after construction with capacity C at least 1 and any sequence of
pushes, the backing vector never grows past C * 2 - 1, and once it has that
length the cursor stays below C, so the window
vec[cur_start .. cur_start + C] is addressable inside the region. -/
theorem c8_backing_region_invariant (T : Type) (C : Nat) (hC : 1 ≤ C)
    (vs : List T) :
    ((with_capacity T C).pushAll vs).vec.length ≤ C * 2 - 1 ∧
    (((with_capacity T C).pushAll vs).vec.length = C * 2 - 1 →
      ((with_capacity T C).pushAll vs).cur_start < C ∧
      ((with_capacity T C).pushAll vs).cur_start + C ≤ C * 2 - 1) := by
  obtain ⟨hfill, hfull⟩ := inv_pushAll C hC vs
  have hcap : ((with_capacity T C).pushAll vs).capacity = C := pushAll_capacity _ _
  rw [hcap] at hfill hfull
  by_cases hN : vs.length < C
  · obtain ⟨hv, hc⟩ := hfill hN
    rw [hv, hc]
    exact ⟨by omega, fun h => ⟨by omega, by omega⟩⟩
  · obtain ⟨hlen, haddr, -, -, -⟩ := hfull (Nat.le_of_not_lt hN)
    exact ⟨by omega, fun h => ⟨by omega, by omega⟩⟩

/-- C8 witness: capacity 3, seven pushes. -/
theorem c8_witness :
    ((with_capacity Nat 3).pushAll [1, 2, 3, 4, 5, 6, 7]).vec.length ≤ 3 * 2 - 1 :=
  (c8_backing_region_invariant Nat 3 (by omega) [1, 2, 3, 4, 5, 6, 7]).1

/-- C9: a push in the steady-state phase (backing length equal to
capacity * 2 - 1, cursor below capacity) keeps the occupied length, writes the
pushed value at cur_start and, exactly when cur_start + capacity is inside the
region, also at cur_start + capacity, leaves every other slot unchanged, and
advances the cursor by one, wrapping to 0 at capacity. -/
theorem c9_steady_state_push_frame (T : Type) (b : CircleBuffer T) (v : T)
    (hC : 1 ≤ b.capacity) (hlen : b.vec.length = b.capacity * 2 - 1)
    (hcs : b.cur_start < b.capacity) :
    (b.push v).vec.length = b.vec.length ∧
    (b.push v).cur_start =
      (if b.cur_start + 1 ≥ b.capacity then 0 else b.cur_start + 1) ∧
    (b.push v).vec[b.cur_start]? = some v ∧
    (b.cur_start + b.capacity < b.capacity * 2 - 1 →
      (b.push v).vec[b.cur_start + b.capacity]? = some v) ∧
    (¬ b.cur_start + b.capacity < b.capacity * 2 - 1 →
      ∀ j, j ≠ b.cur_start → (b.push v).vec[j]? = b.vec[j]?) ∧
    (∀ j, j ≠ b.cur_start → j ≠ b.cur_start + b.capacity →
      (b.push v).vec[j]? = b.vec[j]?) := by
  have h1 : ¬ b.vec.length < b.capacity := by omega
  have h2 : ¬ b.vec.length < b.capacity * 2 - 1 := by omega
  rw [push_steady h1 h2]
  by_cases hin : b.cur_start + b.capacity < b.capacity * 2 - 1
  · rw [if_pos hin]
    refine ⟨?_, rfl, ?_, ?_, ?_, ?_⟩
    · simp only [List.length_set]
    · exact List.getElem?_set_self (by simp only [List.length_set]; omega)
    · intro _
      rw [List.getElem?_set_ne (show b.cur_start ≠ b.cur_start + b.capacity by omega)]
      exact List.getElem?_set_self (by omega)
    · intro hno
      exact absurd hin hno
    · intro j hj1 hj2
      rw [List.getElem?_set_ne (fun e => hj1 e.symm)]
      exact List.getElem?_set_ne (fun e => hj2 e.symm)
  · rw [if_neg hin]
    refine ⟨?_, rfl, ?_, ?_, ?_, ?_⟩
    · simp only [List.length_set]
    · exact List.getElem?_set_self (by omega)
    · intro hx
      exact absurd hx hin
    · intro _ j hj
      exact List.getElem?_set_ne (fun e => hj e.symm)
    · intro j hj1 _
      exact List.getElem?_set_ne (fun e => hj1 e.symm)

/-- C9 witness: capacity 2 buffer in steady state, cursor 0, push 9. -/
theorem c9_witness :
    ((CircleBuffer.mk 2 [1, 2, 3] 0 : CircleBuffer Nat).push 9).vec[0]? = some 9 :=
  (c9_steady_state_push_frame Nat (CircleBuffer.mk 2 [1, 2, 3] 0) 9
    (by decide) (by decide) (by decide)).2.2.1

/-- C10: after construction with capacity C at least 1 and any sequence of
pushes, as_slice and iter never fault, they agree, and the view they return
has exactly len elements. -/
theorem c10_view_and_iteration_never_fault (T : Type) (C : Nat) (hC : 1 ≤ C)
    (vs : List T) :
    ∃ l, ((with_capacity T C).pushAll vs).as_slice = some l ∧
      ((with_capacity T C).pushAll vs).iter = some l ∧
      l.length = ((with_capacity T C).pushAll vs).len := by
  have hb := wf_pushAll C hC vs
  obtain ⟨-, -, -, h4, -, h6⟩ := wf_facts hb
  exact ⟨_, h4, by rw [iter_of_wf hb, h4], h6⟩

/-- C10 witness: capacity 3, four pushes. -/
theorem c10_witness :
    ∃ l, ((with_capacity Nat 3).pushAll [1, 2, 3, 4]).as_slice = some l ∧
      ((with_capacity Nat 3).pushAll [1, 2, 3, 4]).iter = some l ∧
      l.length = ((with_capacity Nat 3).pushAll [1, 2, 3, 4]).len :=
  c10_view_and_iteration_never_fault Nat 3 (by omega) [1, 2, 3, 4]

end CircleBufferSpec
